import Mathlib

/-!
Verification of the Redis command console core of GoNavi
(src/frontend/src/components/RedisCommandEditor.tsx): the batch splitter,
the sequential batch executor with per-command failure isolation, the
reply formatter, and the history discipline.  JavaScript strings are
modelled as Lean strings (lists of characters); the JavaScript primitives
trim, split on newline, startsWith, join, String coercion and
JSON.stringify with two-space indentation are given explicit executable
models.
-/

namespace GoNavi

/-- Model of a JavaScript value as it reaches `formatResult` after JSON
marshalling across the RPC boundary: the shapes the formatter
distinguishes (null, undefined, string, number, array, plain object),
plus booleans, which fall through every typed branch and reach the
fallback `String(result)` arm. -/
inductive JSVal : Type where
  | null : JSVal
  | undef : JSVal
  | str (s : String) : JSVal
  | num (n : Int) : JSVal
  | bool (b : Bool) : JSVal
  | arr (items : List JSVal) : JSVal
  | obj (fields : List (String × JSVal)) : JSVal

/-- Model of the JavaScript coercion `String(b)` for a boolean value,
the only variant of `JSVal` that reaches the final fallback line
`return String(result)` of `formatResult`. -/
def jsBoolString (b : Bool) : String :=
  if b then "true" else "false"

/-- Model of the JavaScript `Array.prototype.join(sep)` on an array of
strings. -/
def jsJoin (sep : String) : List String → String
  | [] => ""
  | [s] => s
  | s :: rest => s ++ sep ++ jsJoin sep rest

/-- Indentation produced by `JSON.stringify(_, null, 2)` at nesting
depth `d`: `2 * d` spaces. -/
def jsonIndent (d : Nat) : String :=
  ⟨List.replicate (2 * d) ' '⟩

/-- Escape of one character inside a JSON string literal, following the
JSON.stringify quoting rules. -/
def jsonEscapeChar (c : Char) : List Char :=
  if c = '"' then ['\\', '"']
  else if c = '\\' then ['\\', '\\']
  else if c = '\n' then ['\\', 'n']
  else if c = '\r' then ['\\', 'r']
  else if c = '\t' then ['\\', 't']
  else if c = '\x08' then ['\\', 'b']
  else if c = '\x0c' then ['\\', 'f']
  else if c.toNat < 32 then
    ['\\', 'u', '0', '0', Nat.digitChar (c.toNat / 16), Nat.digitChar (c.toNat % 16)]
  else [c]

/-- Model of the JSON string literal for `s`, as produced by
JSON.stringify: the escaped characters wrapped in double quotes. -/
def jsonQuote (s : String) : String :=
  ⟨('"' :: ((s.data.map jsonEscapeChar).flatten ++ ['"']) : List Char)⟩

mutual

/-- Model of `JSON.stringify(v, null, 2)` at nesting depth `d`.
Returns `none` exactly when JSON.stringify returns the undefined value
(for an undefined input); inside arrays such elements print as `null`,
inside objects the property is skipped, as JSON.stringify does. -/
def jsonStr (d : Nat) : JSVal → Option String
  | .undef => none
  | .null => some "null"
  | .bool b => some (jsBoolString b)
  | .num n => some (toString n)
  | .str s => some (jsonQuote s)
  | .arr [] => some "[]"
  | .arr (v :: rest) =>
    some ("[\n" ++ jsJoin ",\n" (jsonArrItems (d + 1) (v :: rest)) ++ "\n" ++ jsonIndent d ++ "]")
  | .obj fields =>
    some (match jsonObjItems (d + 1) fields with
      | [] => "\x7b\x7d"
      | it :: its => "\x7b\n" ++ jsJoin ",\n" (it :: its) ++ "\n" ++ jsonIndent d ++ "\x7d")

/-- Rendered and indented elements of a JSON array at depth `d`. -/
def jsonArrItems (d : Nat) : List JSVal → List String
  | [] => []
  | v :: rest => (jsonIndent d ++ (jsonStr d v).getD "null") :: jsonArrItems d rest

/-- Rendered and indented properties of a JSON object at depth `d`,
skipping properties whose value is undefined. -/
def jsonObjItems (d : Nat) : List (String × JSVal) → List String
  | [] => []
  | (k, v) :: rest =>
    match jsonStr d v with
    | none => jsonObjItems d rest
    | some s => (jsonIndent d ++ jsonQuote k ++ ": " ++ s) :: jsonObjItems d rest

end

/-- Rendering of a JSON object value at depth `d`, exactly the object
arm of `jsonStr` as a plain string. -/
def jsonObjRender (d : Nat) (fields : List (String × JSVal)) : String :=
  match jsonObjItems (d + 1) fields with
  | [] => "\x7b\x7d"
  | it :: its => "\x7b\n" ++ jsJoin ",\n" (it :: its) ++ "\n" ++ jsonIndent d ++ "\x7d"

/-- Model of the JavaScript call `JSON.stringify(v, null, 2)`. -/
def jsonStringify2 (v : JSVal) : Option String :=
  jsonStr 0 v

mutual

/-- Embedding of `formatResult` (RedisCommandEditor.tsx lines 96 to 116):
null and undefined render as `(nil)`, a string is wrapped in double
quotes, a number renders as `(integer) n`, an empty array as
`(empty array)`, a non-empty array as its elements recursively formatted
with 1-based index markers joined by newlines, a plain object as
`JSON.stringify(result, null, 2)`, and anything else as `String(result)`. -/
def formatResult : JSVal → String
  | .null => "(nil)"
  | .undef => "(nil)"
  | .str s => "\"" ++ s ++ "\""
  | .num n => "(integer) " ++ toString n
  | .arr [] => "(empty array)"
  | .arr (v :: rest) => jsJoin "\n" (formatItems 0 (v :: rest))
  | .obj fields => jsonObjRender 0 fields
  | .bool b => jsBoolString b

/-- Embedding of the array case of `formatResult`:
`result.map((item, index) => index + 1, a marker and the recursive
format).` with the running 0-based index `i`. -/
def formatItems (i : Nat) : List JSVal → List String
  | [] => []
  | v :: rest => (toString (i + 1) ++ ") " ++ formatResult v) :: formatItems (i + 1) rest

end

/-! Batch splitter.  The source computes
`command.trim().split(newline).filter(c => c.trim() && not startsWith //
and not startsWith #)` and then trims each retained line again inside the
execution loop. -/

/-- Characters removed by the JavaScript `String.prototype.trim` (ASCII
whitespace model). -/
def isJsWhitespace (c : Char) : Bool :=
  c = ' ' || c = '\t' || c = '\n' || c = '\r' || c = '\x0b' || c = '\x0c'

/-- Model of JavaScript `trim` on a character list: whitespace removed
from both ends. -/
def trimChars (l : List Char) : List Char :=
  ((l.dropWhile isJsWhitespace).reverse.dropWhile isJsWhitespace).reverse

/-- Model of the JavaScript call `s.trim()`. -/
def jsTrim (s : String) : String :=
  ⟨trimChars s.data⟩

/-- Helper for splitting on the newline character: returns the first
line together with the list of remaining lines. -/
def splitNlAux : List Char → List Char × List (List Char)
  | [] => ([], [])
  | c :: rest =>
    let p := splitNlAux rest
    if c = '\n' then ([], p.1 :: p.2) else (c :: p.1, p.2)

/-- Lines of a character list, splitting on the newline character; the
result is always non-empty, matching JavaScript `split` which returns
one (possibly empty) piece even for the empty string. -/
def linesOf (l : List Char) : List (List Char) :=
  (splitNlAux l).1 :: (splitNlAux l).2

/-- Model of the JavaScript call `s.split` on the newline character. -/
def jsSplitNl (s : String) : List String :=
  (linesOf s.data).map List.asString

/-- Model of the JavaScript call `startsWith`: does the second list
start with the first? -/
def startsWithL : List Char → List Char → Bool
  | [], _ => true
  | _ :: _, [] => false
  | p :: ps, c :: cs => p == c && startsWithL ps cs

/-- Executability test on an already trimmed line: non-empty and not a
comment (first characters are not the two slashes and not the hash). -/
def goodLine (t : List Char) : Bool :=
  !t.isEmpty && !startsWithL ['/', '/'] t && !startsWithL ['#'] t

/-- Filter predicate of the source, line 60:
`c.trim()` is truthy (non-empty) and the trimmed line does not start
with the two slashes nor the hash comment marker. -/
def keepLine (c : String) : Bool :=
  goodLine (trimChars c.data)

/-- Embedding of line 60 of the source: the filtered split of the
trimmed submission.  The retained lines themselves are NOT yet trimmed
here; the loop trims each one before execution. -/
def splitCommands (raw : String) : List String :=
  (jsSplitNl (jsTrim raw)).filter keepLine

/-- The sequence of command texts actually submitted to the execution
primitive: each retained line trimmed, as done by line 66 of the source
(`const trimmedCmd = cmd.trim()`). -/
def executableCommands (raw : String) : List String :=
  (splitCommands raw).map jsTrim

/-- Definition following the words of the specification of `Split`
(spec section 4.1): divide the raw input on line boundaries, trim each
line, drop a line that is empty after trimming or whose first characters
after trimming are the comment markers, and return the remaining trimmed
lines in their original relative order. -/
def splitSpec (raw : String) : List String :=
  ((jsSplitNl raw).map jsTrim).filter (fun t => goodLine t.data)

/-- Character-level composite of the split-trim-filter pipeline: the
lines of `l`, each trimmed, with empty and comment lines dropped.  Both
the source-side and the spec-side splitter reduce to a map of
`List.asString` over this pipeline. -/
def pipelineChars (l : List Char) : List (List Char) :=
  ((linesOf l).map trimChars).filter goodLine

/-- Append one character to the last element of a list of lines. -/
def lastApp (c : Char) : List (List Char) → List (List Char)
  | [] => []
  | [x] => [x ++ [c]]
  | x :: y :: ys => x :: lastApp c (y :: ys)

/-! Batch executor: the for-loop of `handleExecute`
(RedisCommandEditor.tsx lines 64 to 86). -/

/-- Behaviour of one call of the execution primitive
`window.go.app.App.RedisExecuteCommand`: the promise either resolves
with a response carrying a success flag, a data payload and a message,
or rejects; a rejection is recorded through its derived message
(`e?.message || String(e)`). -/
inductive CallOutcome : Type where
  | resolve (success : Bool) (data : JSVal) (message : String) : CallOutcome
  | reject (message : String) : CallOutcome

/-- Embedding of the `CommandResult` interface of the source. -/
structure CommandResult where
  command : String
  result : JSVal
  error : Option String
  timestamp : Nat

/-- The entry pushed onto `newResults` for one executed command `cmd`
whose call behaved as `o`, stamped with `Date.now()` value `t`:
on a resolved response the result is `res.data` when successful and
null otherwise, the error is `res.message` exactly when unsuccessful;
on a rejection the result is null and the error is the derived message. -/
def execEntry (cmd : String) (o : CallOutcome) (t : Nat) : CommandResult :=
  match o with
  | .resolve success data message =>
    { command := cmd
      result := if success then data else .null
      error := if success then none else some message
      timestamp := t }
  | .reject message =>
    { command := cmd, result := JSVal.null, error := some message, timestamp := t }

/-- The error component an outcome records, as a function of the call
behaviour: none on success, the carried message on a failed response or
a rejection. -/
def callFailure : CallOutcome → Option String
  | .resolve true _ _ => none
  | .resolve false _ m => some m
  | .reject m => some m

/-- Embedding of the execution loop (lines 64 to 86): iterate the
command list in order; trim the command, skip it when the trim is empty,
otherwise perform the `i`-th call of the execution primitive and push
one entry stamped with the `i`-th clock reading.  `execute i` is the
behaviour of the `i`-th call of the primitive and `clock i` the value
`Date.now()` returns at that iteration. -/
def runBatch (execute : Nat → CallOutcome) (clock : Nat → Nat) :
    Nat → List String → List CommandResult
  | _, [] => []
  | i, cmd :: rest =>
    let trimmedCmd := jsTrim cmd
    if trimmedCmd.data = [] then runBatch execute clock i rest
    else execEntry trimmedCmd (execute i) (clock i) :: runBatch execute clock (i + 1) rest

/-- Instrumented trace of the loop: the list of calls made to the
execution primitive, each as the pair of its call index and the command
string passed. -/
def runBatchCalls : Nat → List String → List (Nat × String)
  | _, [] => []
  | i, cmd :: rest =>
    let trimmedCmd := jsTrim cmd
    if trimmedCmd.data = [] then runBatchCalls i rest
    else (i, trimmedCmd) :: runBatchCalls (i + 1) rest

/-- Embedding of `handleExecute` (lines 49 to 91) as a state transition
on the result history: when the trimmed submission is empty, warn
(first component true) and leave the history unchanged; otherwise run
the split commands and prepend the new outcomes in front of the
previous history (`setResults(prev => [...newResults, ...prev])`). -/
def handleExecute (execute : Nat → CallOutcome) (clock : Nat → Nat)
    (raw : String) (prev : List CommandResult) : Bool × List CommandResult :=
  let cmdToExecute := jsTrim raw
  if cmdToExecute.data = [] then (true, prev)
  else (false, runBatch execute clock 0 (splitCommands raw) ++ prev)

/-- Embedding of `handleClear` (lines 93 to 95): `setResults([])`. -/
def handleClear (_results : List CommandResult) : List CommandResult :=
  []

/-! Measures used by the structural claims about the formatter. -/

/-- Number of newline characters in a string. -/
def nlCount (s : String) : Nat :=
  s.data.count '\n'

/-- Number of newline-separated lines of a rendered string. -/
def lineCount (s : String) : Nat :=
  nlCount s + 1

mutual

/-- Total number of leaf elements of a reply value across all nesting
levels: every non-array value counts as one leaf. -/
def leafCount : JSVal → Nat
  | .arr items => leafCountList items
  | _ => 1

/-- Sum of the leaf counts of a list of reply values. -/
def leafCountList : List JSVal → Nat
  | [] => 0
  | v :: rest => leafCount v + leafCountList rest

end

mutual

/-- The hypothesis of the structural claim as stated: a value built from
Text and Integer leaves and non-empty Sequences only. -/
def tiTree : JSVal → Bool
  | .str _ => true
  | .num _ => true
  | .arr items => !items.isEmpty && tiTreeList items
  | _ => false

/-- List version of `tiTree`. -/
def tiTreeList : List JSVal → Bool
  | [] => true
  | v :: rest => tiTree v && tiTreeList rest

end

mutual

/-- The amended hypothesis of the structural claim: as `tiTree`, but
additionally every Text leaf contains no newline character. -/
def tiTreeNoNl : JSVal → Bool
  | .str s => s.data.count '\n' == 0
  | .num _ => true
  | .arr items => !items.isEmpty && tiTreeNoNlList items
  | _ => false

/-- List version of `tiTreeNoNl`. -/
def tiTreeNoNlList : List JSVal → Bool
  | [] => true
  | v :: rest => tiTreeNoNl v && tiTreeNoNlList rest

end

/-! Helper lemmas about the executor. -/

theorem execEntry_error (cmd : String) (o : CallOutcome) (t : Nat) :
    (execEntry cmd o t).error = callFailure o := by
  cases o with
  | resolve success data message => cases success <;> rfl
  | reject message => rfl

theorem execEntry_timestamp (cmd : String) (o : CallOutcome) (t : Nat) :
    (execEntry cmd o t).timestamp = t := by
  cases o with
  | resolve success data message => rfl
  | reject message => rfl

theorem runBatch_eq_enumFrom (execute : Nat → CallOutcome) (clock : Nat → Nat)
    (cmds : List String) (h : ∀ c ∈ cmds, (jsTrim c).data ≠ []) (k : Nat) :
    runBatch execute clock k cmds =
      (List.enumFrom k cmds).map
        (fun p => execEntry (jsTrim p.2) (execute p.1) (clock p.1)) := by
  induction cmds generalizing k with
  | nil => rfl
  | cons cmd rest ih =>
    have hc : ¬ (jsTrim cmd).data = [] := h cmd (by simp)
    have hrest : ∀ c ∈ rest, (jsTrim c).data ≠ [] := fun c hm => h c (by simp [hm])
    simp only [runBatch, List.enumFrom_cons, List.map_cons, if_neg hc]
    exact congrArg _ (ih hrest (k + 1))

theorem runBatchCalls_eq_enumFrom (cmds : List String)
    (h : ∀ c ∈ cmds, (jsTrim c).data ≠ []) (k : Nat) :
    runBatchCalls k cmds = (List.enumFrom k cmds).map (fun p => (p.1, jsTrim p.2)) := by
  induction cmds generalizing k with
  | nil => rfl
  | cons cmd rest ih =>
    have hc : ¬ (jsTrim cmd).data = [] := h cmd (by simp)
    have hrest : ∀ c ∈ rest, (jsTrim c).data ≠ [] := fun c hm => h c (by simp [hm])
    simp only [runBatchCalls, List.enumFrom_cons, List.map_cons, if_neg hc]
    exact congrArg _ (ih hrest (k + 1))

theorem formatItems_eq_enumFrom (items : List JSVal) (k : Nat) :
    formatItems k items =
      (List.enumFrom k items).map
        (fun p => toString (p.1 + 1) ++ ") " ++ formatResult p.2) := by
  induction items generalizing k with
  | nil => rfl
  | cons v rest ih =>
    simp only [formatItems, List.enumFrom_cons, List.map_cons]
    exact congrArg _ (ih (k + 1))

/-- C1: on a batch of executable commands (each with a non-empty trim,
as the splitter guarantees), the loop makes exactly one call of the
primitive per command in input order, returns exactly one outcome per
command in the original order, and the outcome of command `i` carries an
error exactly when call `i` failed, with that failure's message; a
failure never stops the remaining commands from running. -/
theorem runBatch_outcomes (execute : Nat → CallOutcome) (clock : Nat → Nat)
    (cmds : List String) (h : ∀ c ∈ cmds, (jsTrim c).data ≠ []) :
    (runBatch execute clock 0 cmds).length = cmds.length ∧
    runBatch execute clock 0 cmds =
      (List.enum cmds).map
        (fun p => execEntry (jsTrim p.2) (execute p.1) (clock p.1)) ∧
    (runBatch execute clock 0 cmds).map (fun r => r.error) =
      (List.enum cmds).map (fun p => callFailure (execute p.1)) ∧
    runBatchCalls 0 cmds = (List.enum cmds).map (fun p => (p.1, jsTrim p.2)) := by
  have hmain := runBatch_eq_enumFrom execute clock cmds h 0
  refine ⟨?_, hmain, ?_, runBatchCalls_eq_enumFrom cmds h 0⟩
  · rw [hmain]; simp [List.enum]
  · rw [hmain]; simp [List.enum, List.map_map, Function.comp_def, execEntry_error]

theorem runBatch_outcomes_witness :
    (runBatch
      (fun i => if i = 0 then CallOutcome.reject "unknown command"
        else CallOutcome.resolve true (JSVal.num 3) "")
      (fun i => i) 0 ["BADCMD", "DBSIZE"]).length = 2 :=
  (runBatch_outcomes _ _ ["BADCMD", "DBSIZE"] (by decide)).1

/-- C2 counterexample: the submission consisting of the single line
`# comment only` splits to zero executable commands, yet `handleExecute`
does not signal the warning (first component false): the warning is
raised only when the whole submission trims to the empty string.  No
execution happens and History stays unchanged, as the claim states. -/
theorem emptyBatch_warning_cex :
    splitCommands "# comment only" = [] ∧
    (handleExecute (fun _ => CallOutcome.reject "never called") (fun _ => 0)
      "# comment only" []).1 = false ∧
    (handleExecute (fun _ => CallOutcome.reject "never called") (fun _ => 0)
      "# comment only" []).2 = [] :=
  ⟨by decide, by decide, rfl⟩

/-- C2 amended: a submission that trims to the empty string triggers the
user warning, performs no execution and leaves History unchanged; for
every submission containing any non-whitespace character the warning is
never signalled — in particular for every comments-only submission —
and whenever the splitting yields zero executable commands, no execution
is performed and History is unchanged. -/
theorem emptyBatch_behavior (execute : Nat → CallOutcome) (clock : Nat → Nat)
    (raw : String) (prev : List CommandResult) :
    ((jsTrim raw).data = [] → handleExecute execute clock raw prev = (true, prev)) ∧
    ((jsTrim raw).data ≠ [] → (handleExecute execute clock raw prev).1 = false) ∧
    (splitCommands raw = [] → (handleExecute execute clock raw prev).2 = prev) := by
  refine ⟨?_, ?_, ?_⟩
  · intro hemp
    simp [handleExecute, hemp]
  · intro hne
    simp [handleExecute, hne]
  · intro hsplit
    by_cases hemp : (jsTrim raw).data = []
    · simp [handleExecute, hemp]
    · simp [handleExecute, hemp, hsplit, runBatch]

theorem emptyBatch_behavior_witness :
    handleExecute (fun _ => CallOutcome.reject "e") (fun _ => 0) "   " [] = (true, []) ∧
    (handleExecute (fun _ => CallOutcome.reject "e") (fun _ => 0) "# c" []).1 = false ∧
    (handleExecute (fun _ => CallOutcome.reject "e") (fun _ => 0) "# c" []).2 = [] :=
  ⟨(emptyBatch_behavior _ _ "   " []).1 (by decide),
   (emptyBatch_behavior _ _ "# c" []).2.1 (by decide),
   (emptyBatch_behavior _ _ "# c" []).2.2 (by decide)⟩

/-- C4: null and undefined format as `(nil)`, a Text value as the text
wrapped in double quotes, an Integer as `(integer) n`, and the empty
Sequence as `(empty array)`. -/
theorem format_scalar_cases :
    formatResult JSVal.null = "(nil)" ∧
    formatResult JSVal.undef = "(nil)" ∧
    (∀ s : String, formatResult (JSVal.str s) = "\"" ++ s ++ "\"") ∧
    (∀ n : Int, formatResult (JSVal.num n) = "(integer) " ++ toString n) ∧
    formatResult (JSVal.arr []) = "(empty array)" :=
  ⟨rfl, rfl, fun _ => rfl, fun _ => rfl, rfl⟩

/-- C5: a non-empty Sequence formats as its elements, each fully
recursively formatted and prefixed with its 1-based index and a closing
parenthesis marker, joined by newlines; in the nested scenario the
output starts with the first indexed line, the outer index 2 prefixes
the complete inner rendering, and the inner indices restart at 1. -/
theorem format_sequence_indexing :
    (∀ (v : JSVal) (rest : List JSVal),
      formatResult (JSVal.arr (v :: rest)) =
        jsJoin "\n" ((List.enum (v :: rest)).map
          (fun p => toString (p.1 + 1) ++ ") " ++ formatResult p.2))) ∧
    formatResult (JSVal.arr [JSVal.str "a", JSVal.arr [JSVal.str "b", JSVal.str "c"]]) =
      "1) \"a\"" ++ "\n" ++ ("2) " ++ formatResult (JSVal.arr [JSVal.str "b", JSVal.str "c"])) ∧
    formatResult (JSVal.arr [JSVal.str "b", JSVal.str "c"]) =
      "1) \"b\"" ++ "\n" ++ "2) \"c\"" := by
  refine ⟨fun v rest => ?_, by decide, by decide⟩
  show jsJoin "\n" (formatItems 0 (v :: rest)) = _
  rw [formatItems_eq_enumFrom]
  rfl

/-- C7: the formatter is a total function on every reply variant, and a
shape matching none of the typed branches (a boolean) degrades to the
JavaScript string coercion of the value instead of failing. -/
theorem format_total_fallback :
    (∀ v : JSVal, ∃ s : String, formatResult v = s) ∧
    (∀ b : Bool, formatResult (JSVal.bool b) = jsBoolString b) :=
  ⟨fun v => ⟨formatResult v, rfl⟩, fun _ => rfl⟩

/-- C8: submitting batch A and then batch B leaves History as B's
outcomes, in B's order, followed by A's outcomes, in A's order, followed
by the untouched pre-existing entries; the clear operation empties
History wholesale. -/
theorem history_prepend_order (execA execB : Nat → CallOutcome)
    (clockA clockB : Nat → Nat) (rawA rawB : String) (init : List CommandResult)
    (hA : (jsTrim rawA).data ≠ []) (hB : (jsTrim rawB).data ≠ []) :
    (handleExecute execB clockB rawB (handleExecute execA clockA rawA init).2).2 =
      runBatch execB clockB 0 (splitCommands rawB) ++
        (runBatch execA clockA 0 (splitCommands rawA) ++ init) ∧
    (∀ rs : List CommandResult, handleClear rs = []) := by
  refine ⟨?_, fun _ => rfl⟩
  simp [handleExecute, hA, hB]

theorem history_prepend_order_witness :
    (handleExecute (fun _ => CallOutcome.reject "x") (fun _ => 1) "GET b"
      (handleExecute (fun _ => CallOutcome.reject "x") (fun _ => 0) "GET a" []).2).2 =
      runBatch (fun _ => CallOutcome.reject "x") (fun _ => 1) 0 (splitCommands "GET b") ++
        (runBatch (fun _ => CallOutcome.reject "x") (fun _ => 0) 0 (splitCommands "GET a") ++ []) :=
  (history_prepend_order _ _ _ _ "GET a" "GET b" [] (by decide) (by decide)).1

/-- C9: every outcome of a batch run is stamped with the clock reading
of its own iteration, so whenever the clock is monotone non-decreasing,
the outcome timestamps are non-decreasing in submission order. -/
theorem timestamps_monotone (execute : Nat → CallOutcome) (clock : Nat → Nat)
    (cmds : List String) (h : ∀ c ∈ cmds, (jsTrim c).data ≠ [])
    (hmono : ∀ i j : Nat, i ≤ j → clock i ≤ clock j) :
    (∀ (i : Nat) (hi : i < (runBatch execute clock 0 cmds).length),
      ((runBatch execute clock 0 cmds).get ⟨i, hi⟩).timestamp = clock i) ∧
    (∀ (i j : Nat) (hi : i < (runBatch execute clock 0 cmds).length)
      (hj : j < (runBatch execute clock 0 cmds).length), i ≤ j →
      ((runBatch execute clock 0 cmds).get ⟨i, hi⟩).timestamp ≤
        ((runBatch execute clock 0 cmds).get ⟨j, hj⟩).timestamp) := by
  have hstamp : ∀ (i : Nat) (hi : i < (runBatch execute clock 0 cmds).length),
      ((runBatch execute clock 0 cmds).get ⟨i, hi⟩).timestamp = clock i := by
    intro i hi
    rw [List.get_eq_getElem,
      List.getElem_of_eq (runBatch_eq_enumFrom execute clock cmds h 0) hi,
      List.getElem_map, List.getElem_enumFrom, execEntry_timestamp, Nat.zero_add]
  refine ⟨hstamp, fun i j hi hj hij => ?_⟩
  rw [hstamp i hi, hstamp j hj]
  exact hmono i j hij

theorem timestamps_monotone_witness :
    ((runBatch (fun _ => CallOutcome.reject "boom") (fun i => i) 0
      ["PING", "PING"]).get ⟨0, by decide⟩).timestamp ≤
    ((runBatch (fun _ => CallOutcome.reject "boom") (fun i => i) 0
      ["PING", "PING"]).get ⟨1, by decide⟩).timestamp :=
  (timestamps_monotone _ _ ["PING", "PING"] (by decide)
    (fun _ _ hij => hij)).2 0 1 (by decide) (by decide) (by decide)

/-- C10: a plain object reply formats as exactly the result of
JSON.stringify with two-space indentation, keys kept in the order
received; witnessed on the empty object, a two-key object and a nested
object with an array value. -/
theorem format_object_json :
    (∀ fields : List (String × JSVal),
      jsonStringify2 (JSVal.obj fields) = some (formatResult (JSVal.obj fields))) ∧
    formatResult (JSVal.obj []) = "\x7b\x7d" ∧
    formatResult (JSVal.obj [("b", JSVal.num 2), ("a", JSVal.str "x")]) =
      "\x7b\n  \"b\": 2,\n  \"a\": \"x\"\n\x7d" ∧
    formatResult (JSVal.obj [("k", JSVal.arr [JSVal.str "q", JSVal.null]),
        ("m", JSVal.obj [("i", JSVal.num 1)])]) =
      "\x7b\n  \"k\": [\n    \"q\",\n    null\n  ],\n  \"m\": \x7b\n    \"i\": 1\n  \x7d\n\x7d" :=
  ⟨fun _ => rfl, by decide, by decide, by decide⟩

/-! Splitter lemmas: the composite pipeline of splitting, trimming and
filtering is unchanged by trimming the whole input first, because the
removed characters are whitespace at the two ends, and the lines they
belong to are trimmed or dropped anyway. -/

theorem trimChars_cons_ws (c : Char) (l : List Char) (h : isJsWhitespace c = true) :
    trimChars (c :: l) = trimChars l := by
  simp [trimChars, List.dropWhile_cons_of_pos h]

theorem trimChars_append_ws (c : Char) (l : List Char) (h : isJsWhitespace c = true) :
    trimChars (l ++ [c]) = trimChars l := by
  unfold trimChars
  rw [List.dropWhile_append]
  by_cases he : (l.dropWhile isJsWhitespace).isEmpty
  · rw [if_pos he]
    rw [List.isEmpty_iff] at he
    simp [he, List.dropWhile_cons_of_pos h]
  · rw [if_neg he]
    rw [List.reverse_append]
    simp [List.dropWhile_cons_of_pos h]

theorem linesOf_nl (l : List Char) : linesOf ('\n' :: l) = [] :: linesOf l := by
  simp [linesOf, splitNlAux]

theorem linesOf_cons_ne (c : Char) (l : List Char) (h : ¬ c = '\n') :
    linesOf (c :: l) = (c :: (splitNlAux l).1) :: (splitNlAux l).2 := by
  simp [linesOf, splitNlAux, h]

theorem pipelineChars_cons_ws (c : Char) (l : List Char) (h : isJsWhitespace c = true) :
    pipelineChars (c :: l) = pipelineChars l := by
  by_cases hnl : c = '\n'
  · subst hnl
    simp only [pipelineChars, linesOf_nl, List.map_cons]
    rw [List.filter_cons_of_neg (by decide)]
  · rw [pipelineChars, linesOf_cons_ne c l hnl, List.map_cons, trimChars_cons_ws c _ h]
    rfl

theorem pipelineChars_ws_prefix (pre l : List Char)
    (h : ∀ c ∈ pre, isJsWhitespace c = true) :
    pipelineChars (pre ++ l) = pipelineChars l := by
  induction pre with
  | nil => rfl
  | cons c rest ih =>
    rw [List.cons_append, pipelineChars_cons_ws c _ (h c (by simp))]
    exact ih (fun d hd => h d (by simp [hd]))

theorem pipelineChars_dropWhile (l : List Char) :
    pipelineChars l = pipelineChars (l.dropWhile isJsWhitespace) := by
  conv_lhs => rw [← List.takeWhile_append_dropWhile (p := isJsWhitespace) (l := l)]
  exact pipelineChars_ws_prefix _ _ (fun c hc => List.mem_takeWhile_imp hc)

theorem linesOf_append_nl (l : List Char) :
    linesOf (l ++ ['\n']) = linesOf l ++ [[]] := by
  induction l with
  | nil => decide
  | cons a l ih =>
    by_cases ha : a = '\n'
    · subst ha
      rw [List.cons_append, linesOf_nl, linesOf_nl, ih, List.cons_append]
    · rw [List.cons_append, linesOf_cons_ne a _ ha, linesOf_cons_ne a l ha]
      have ih2 : (splitNlAux (l ++ ['\n'])).1 :: (splitNlAux (l ++ ['\n'])).2 =
          (splitNlAux l).1 :: ((splitNlAux l).2 ++ [[]]) := by
        rw [show (splitNlAux (l ++ ['\n'])).1 :: (splitNlAux (l ++ ['\n'])).2 =
            linesOf (l ++ ['\n']) from rfl, ih]
        rfl
      rw [List.cons.injEq] at ih2
      obtain ⟨h1, h2⟩ := ih2
      rw [h1, h2, List.cons_append]

theorem linesOf_append_ne (c : Char) (hc : ¬ c = '\n') (l : List Char) :
    linesOf (l ++ [c]) = lastApp c (linesOf l) := by
  induction l with
  | nil => simp [linesOf, splitNlAux, lastApp, hc]
  | cons a l ih =>
    by_cases ha : a = '\n'
    · subst ha
      rw [List.cons_append, linesOf_nl, linesOf_nl, ih]
      rfl
    · rw [List.cons_append, linesOf_cons_ne a _ ha, linesOf_cons_ne a l ha]
      have ih2 : (splitNlAux (l ++ [c])).1 :: (splitNlAux (l ++ [c])).2 =
          lastApp c ((splitNlAux l).1 :: (splitNlAux l).2) := by
        rw [show (splitNlAux (l ++ [c])).1 :: (splitNlAux (l ++ [c])).2 =
            linesOf (l ++ [c]) from rfl, ih]
        rfl
      rcases hsp : (splitNlAux l).2 with - | ⟨y, ys⟩
      · rw [hsp] at ih2
        simp only [lastApp] at ih2
        rw [List.cons.injEq] at ih2
        obtain ⟨h1, h2⟩ := ih2
        rw [h1, h2]
        simp [lastApp]
      · rw [hsp] at ih2
        simp only [lastApp] at ih2
        rw [List.cons.injEq] at ih2
        obtain ⟨h1, h2⟩ := ih2
        rw [h1, h2]
        simp [lastApp]

theorem map_trimChars_lastApp (c : Char) (h : isJsWhitespace c = true)
    (L : List (List Char)) : (lastApp c L).map trimChars = L.map trimChars := by
  induction L with
  | nil => rfl
  | cons x L ih =>
    cases L with
    | nil => simp [lastApp, trimChars_append_ws c x h]
    | cons y ys =>
      simp only [lastApp, List.map_cons] at ih ⊢
      rw [ih]

theorem pipelineChars_append_ws (c : Char) (l : List Char)
    (h : isJsWhitespace c = true) :
    pipelineChars (l ++ [c]) = pipelineChars l := by
  by_cases hnl : c = '\n'
  · subst hnl
    rw [pipelineChars, linesOf_append_nl, List.map_append, List.filter_append]
    have hnil : List.filter goodLine (List.map trimChars [[]]) = [] := by decide
    rw [hnil, List.append_nil]
    rfl
  · rw [pipelineChars, linesOf_append_ne c hnl l, map_trimChars_lastApp c h (linesOf l)]
    rfl

theorem pipelineChars_ws_suffix (s : List Char)
    (h : ∀ c ∈ s, isJsWhitespace c = true) (l : List Char) :
    pipelineChars (l ++ s) = pipelineChars l := by
  induction s generalizing l with
  | nil => rw [List.append_nil]
  | cons c s ih =>
    rw [show l ++ (c :: s) = (l ++ [c]) ++ s by simp,
      ih (fun d hd => h d (by simp [hd])) (l ++ [c]),
      pipelineChars_append_ws c l (h c (by simp))]

theorem pipelineChars_trim (l : List Char) :
    pipelineChars (trimChars l) = pipelineChars l := by
  have hdecomp : l.dropWhile isJsWhitespace =
      trimChars l ++ ((l.dropWhile isJsWhitespace).reverse.takeWhile isJsWhitespace).reverse := by
    conv_lhs => rw [← List.reverse_reverse (l.dropWhile isJsWhitespace),
      ← List.takeWhile_append_dropWhile (p := isJsWhitespace)
        (l := (l.dropWhile isJsWhitespace).reverse)]
    rw [List.reverse_append]
    rfl
  rw [pipelineChars_dropWhile l]
  conv_rhs => rw [hdecomp]
  rw [pipelineChars_ws_suffix _
    (fun c hc => List.mem_takeWhile_imp (List.mem_reverse.mp hc)) (trimChars l)]

theorem asString_data (l : List Char) : (List.asString l).data = l :=
  rfl

theorem keepLine_asString (l : List Char) :
    keepLine (List.asString l) = goodLine (trimChars l) :=
  rfl

theorem splitSpec_eq_pipeline_aux (L : List (List Char)) :
    ((L.map List.asString).map jsTrim).filter (fun t => goodLine t.data) =
      ((L.map trimChars).filter goodLine).map List.asString := by
  induction L with
  | nil => rfl
  | cons x L ih =>
    simp only [List.map_cons]
    rw [show jsTrim (List.asString x) = List.asString (trimChars x) from rfl]
    cases hgood : goodLine (trimChars x) with
    | true =>
      rw [List.filter_cons_of_pos (by exact hgood), List.filter_cons_of_pos (by exact hgood)]
      rw [List.map_cons, ih]
    | false =>
      rw [List.filter_cons_of_neg (by simp only [asString_data]; simp [hgood]),
        List.filter_cons_of_neg (by simp [hgood])]
      exact ih

theorem exec_eq_pipeline_aux (L : List (List Char)) :
    ((L.map List.asString).filter keepLine).map jsTrim =
      ((L.map trimChars).filter goodLine).map List.asString := by
  induction L with
  | nil => rfl
  | cons x L ih =>
    simp only [List.map_cons]
    cases hgood : goodLine (trimChars x) with
    | true =>
      rw [List.filter_cons_of_pos (by exact hgood), List.filter_cons_of_pos (by exact hgood)]
      rw [List.map_cons, ih]
      rfl
    | false =>
      rw [List.filter_cons_of_neg (by simp only [keepLine_asString]; simp [hgood]),
        List.filter_cons_of_neg (by simp [hgood])]
      exact ih

theorem splitSpec_eq_pipeline (raw : String) :
    splitSpec raw = (pipelineChars raw.data).map List.asString :=
  splitSpec_eq_pipeline_aux (linesOf raw.data)

theorem exec_eq_pipeline (raw : String) :
    executableCommands raw = (pipelineChars (trimChars raw.data)).map List.asString :=
  exec_eq_pipeline_aux (linesOf (trimChars raw.data))

/-- C3: the executable commands of a raw submission are exactly the raw
input divided on line boundaries, each line trimmed, with the lines that
are empty after trimming or whose first characters after trimming are
the comment markers dropped, in their original relative order; on the
scenario input the result is the two commands. -/
theorem split_matches_spec :
    (∀ raw : String, executableCommands raw = splitSpec raw) ∧
    executableCommands "GET foo\n# comment\nDBSIZE" = ["GET foo", "DBSIZE"] := by
  refine ⟨fun raw => ?_, by decide⟩
  calc executableCommands raw
      = (pipelineChars (trimChars raw.data)).map List.asString := exec_eq_pipeline raw
    _ = (pipelineChars raw.data).map List.asString := by rw [pipelineChars_trim]
    _ = splitSpec raw := (splitSpec_eq_pipeline raw).symm

/-! Newline counting lemmas for the structural claim about the
formatter: decimal digit strings and the fixed markers contain no
newline, so every leaf contributes exactly one line. -/

theorem digitChar_ne_nl (m : Nat) : Nat.digitChar m ≠ '\n' := by
  by_cases h : m < 16
  · interval_cases m <;> decide
  · have hstar : Nat.digitChar m = '*' := by
      unfold Nat.digitChar
      repeat rw [if_neg (by omega)]
    rw [hstar]
    decide

theorem toDigitsCore_ne_nl (fuel : Nat) :
    ∀ (n : Nat) (ds : List Char), (∀ c ∈ ds, c ≠ '\n') →
      ∀ c ∈ Nat.toDigitsCore 10 fuel n ds, c ≠ '\n' := by
  induction fuel with
  | zero =>
    intro n ds h c hc
    exact h c hc
  | succ fuel ih =>
    intro n ds h c hc
    simp only [Nat.toDigitsCore] at hc
    have hcons : ∀ d ∈ Nat.digitChar (n % 10) :: ds, d ≠ '\n' := by
      intro d hd
      rcases List.mem_cons.mp hd with h1 | h2
      · rw [h1]; exact digitChar_ne_nl _
      · exact h d h2
    by_cases hz : n / 10 = 0
    · rw [if_pos hz] at hc
      exact hcons c hc
    · rw [if_neg hz] at hc
      exact ih (n / 10) (Nat.digitChar (n % 10) :: ds) hcons c hc

theorem natRepr_ne_nl (n : Nat) : '\n' ∉ (Nat.repr n).data := fun hmem =>
  toDigitsCore_ne_nl (n + 1) n [] (by simp) '\n' hmem rfl

theorem intToString_ne_nl (n : Int) : '\n' ∉ (toString n).data := by
  cases n with
  | ofNat m => exact natRepr_ne_nl m
  | negSucc m =>
    show '\n' ∉ ("-" ++ Nat.repr (m + 1)).data
    rw [String.data_append]
    intro hmem
    rcases List.mem_append.mp hmem with h1 | h2
    · simp at h1
    · exact natRepr_ne_nl (m + 1) h2

theorem nlCount_append (a b : String) : nlCount (a ++ b) = nlCount a + nlCount b := by
  simp [nlCount, String.data_append, List.count_append]

theorem nlCount_natToString (m : Nat) : nlCount (toString m) = 0 :=
  List.count_eq_zero.mpr (natRepr_ne_nl m)

theorem nlCount_intToString (n : Int) : nlCount (toString n) = 0 :=
  List.count_eq_zero.mpr (intToString_ne_nl n)

mutual

theorem format_nlCount : ∀ (v : JSVal), tiTreeNoNl v = true →
    nlCount (formatResult v) + 1 = leafCount v
  | .str s, h => by
    have hs : s.data.count '\n' = 0 := by simpa [tiTreeNoNl] using h
    show nlCount ("\"" ++ s ++ "\"") + 1 = 1
    rw [nlCount_append, nlCount_append]
    have h1 : nlCount "\"" = 0 := by decide
    have h2 : nlCount s = 0 := hs
    omega
  | .num n, _ => by
    show nlCount ("(integer) " ++ toString n) + 1 = 1
    rw [nlCount_append]
    have h1 : nlCount "(integer) " = 0 := by decide
    have h2 : nlCount (toString n) = 0 := nlCount_intToString n
    omega
  | .arr (v :: rest), h => by
    have hl : tiTreeNoNlList (v :: rest) = true := by
      simpa [tiTreeNoNl] using h
    show nlCount (jsJoin "\n" (formatItems 0 (v :: rest))) + 1 = leafCountList (v :: rest)
    exact format_items_nlCount 0 v rest hl
  | .arr [], h => by simp [tiTreeNoNl] at h
  | .null, h => by simp [tiTreeNoNl] at h
  | .undef, h => by simp [tiTreeNoNl] at h
  | .bool b, h => by simp [tiTreeNoNl] at h
  | .obj f, h => by simp [tiTreeNoNl] at h
termination_by v _ => sizeOf v
decreasing_by all_goals (simp_wf; try omega)

theorem format_items_nlCount : ∀ (k : Nat) (v : JSVal) (rest : List JSVal),
    tiTreeNoNlList (v :: rest) = true →
    nlCount (jsJoin "\n" (formatItems k (v :: rest))) + 1 = leafCountList (v :: rest)
  | k, v, [], h => by
    have hv : tiTreeNoNl v = true := by
      simp only [tiTreeNoNlList, Bool.and_eq_true] at h
      exact h.1
    have hrec := format_nlCount v hv
    show nlCount (toString (k + 1) ++ ") " ++ formatResult v) + 1 = leafCount v + 0
    rw [nlCount_append, nlCount_append]
    have h1 : nlCount (toString (k + 1)) = 0 := nlCount_natToString (k + 1)
    have h2 : nlCount ") " = 0 := by decide
    omega
  | k, v, w :: ws, h => by
    have hv : tiTreeNoNl v = true := by
      simp only [tiTreeNoNlList, Bool.and_eq_true] at h
      exact h.1
    have hrest : tiTreeNoNlList (w :: ws) = true := by
      simp only [tiTreeNoNlList, Bool.and_eq_true]
      simp only [tiTreeNoNlList, Bool.and_eq_true] at h
      exact h.2
    have hrec1 := format_nlCount v hv
    have hrec2 := format_items_nlCount (k + 1) w ws hrest
    have hsplit : jsJoin "\n" (formatItems k (v :: w :: ws)) =
        (toString (k + 1) ++ ") " ++ formatResult v) ++ "\n" ++
          jsJoin "\n" (formatItems (k + 1) (w :: ws)) := by
      simp only [formatItems]
      rfl
    rw [hsplit, nlCount_append, nlCount_append, nlCount_append, nlCount_append]
    have h1 : nlCount (toString (k + 1)) = 0 := nlCount_natToString (k + 1)
    have h2 : nlCount ") " = 0 := by decide
    have h3 : nlCount "\n" = 1 := by decide
    show _ + 1 = leafCount v + leafCountList (w :: ws)
    omega
termination_by _ v rest _ => 1 + sizeOf v + sizeOf rest
decreasing_by all_goals (simp_wf; try omega)

end

/-- C6 counterexample: the Sequence containing the single Text leaf
with an embedded newline satisfies the claim's hypothesis (all leaves
are Text or Integer, every Sequence non-empty), but its rendering spans
two newline-separated lines while the leaf count is one. -/
theorem format_lineCount_cex :
    tiTree (JSVal.arr [JSVal.str "x\ny"]) = true ∧
    lineCount (formatResult (JSVal.arr [JSVal.str "x\ny"])) = 2 ∧
    leafCount (JSVal.arr [JSVal.str "x\ny"]) = 1 :=
  ⟨by decide, by decide, by decide⟩

/-- C6 amended: for a non-empty Sequence of any depth whose leaves are
all Text or Integer values, whose Text leaves contain no newline
character and whose nested Sequences are all non-empty, the number of
newline-separated lines of the rendering equals the total number of
leaves, and the top-level elements are prefixed `1)` through `N)` with
no gaps. -/
theorem format_lineCount_leaves (items : List JSVal)
    (h : tiTreeNoNl (JSVal.arr items) = true) :
    lineCount (formatResult (JSVal.arr items)) = leafCount (JSVal.arr items) ∧
    formatItems 0 items =
      (List.enum items).map (fun p => toString (p.1 + 1) ++ ") " ++ formatResult p.2) :=
  ⟨format_nlCount (JSVal.arr items) h, formatItems_eq_enumFrom items 0⟩

theorem format_lineCount_leaves_witness :
    lineCount (formatResult
      (JSVal.arr [JSVal.str "a", JSVal.arr [JSVal.num 1, JSVal.str "b"]])) =
    leafCount (JSVal.arr [JSVal.str "a", JSVal.arr [JSVal.num 1, JSVal.str "b"]]) :=
  (format_lineCount_leaves [JSVal.str "a", JSVal.arr [JSVal.num 1, JSVal.str "b"]]
    (by decide)).1

end GoNavi
